import Mathlib

/-!
Verification of the B-UML structural metamodel
(`besser/BUML/metamodel/structural/structural.py`).

The Python classes are shallowly embedded: object identities become `Nat`
ids, Python sets become `Finset`/`List` (a `List` where the iteration
order of a set matters), mutation becomes explicit state passing, and a
`raise` becomes an error value paired with the state as mutated so far
(Python exceptions do not roll back prior mutations).
-/

namespace BUML

/-! ### TypedElement string-type resolution

Embeds `TypedElement.type_mapping` and the string branch of
`TypedElement.__init__`: a string type is looked up in the mapping and
resolves to a shared primitive singleton, otherwise a fresh ad hoc
`Type(name)` is created.  A resolved type is either a primitive
singleton (tagged by its canonical primitive name) or an ad hoc named
type. -/

/-- Result of resolving a `Union[Type, str]` given as a string. -/
inductive BType where
  | primitive : String → BType
  | named : String → BType
deriving DecidableEq, Repr

/-- The `TypedElement.type_mapping` dictionary: key string to the name of
the primitive singleton it maps to (e.g. `StringType` is the primitive
named `"str"`). -/
def type_mapping : List (String × String) :=
  [("str", "str"), ("string", "str"), ("int", "int"), ("float", "float"),
   ("bool", "bool"), ("time", "time"), ("date", "date"),
   ("datetime", "datetime"), ("timedelta", "timedelta")]

/-- The eight allowed primitive type names, from the validation list in
`PrimitiveDataType.name` (also the names of the eight singletons in
`primitive_data_types`). -/
def primitiveNames : List String :=
  ["int", "float", "str", "bool", "time", "date", "datetime", "timedelta"]

/-- `TypedElement.__init__`, string case:
`self.type_mapping[type] if type in self.type_mapping else Type(type)`. -/
def resolveTypeStr (s : String) : BType :=
  match type_mapping.lookup s with
  | some p => .primitive p
  | none => .named s

/-! ### Enumeration.add_literal

State of one enumeration object `eid` together with the literal objects
in scope: each literal id has a name and an optional owner. -/

structure LitState where
  litName : Nat → String
  litOwner : Nat → Option Nat
  enumLits : List Nat

/-- `Enumeration.add_literal`: raises on a name clash with an existing
literal, otherwise adds the literal to the set.  (The code does not
touch the literal's `owner`.)  The returned pair is
(raised error message?, state after the call). -/
def addLiteral (s : LitState) (lid : Nat) : Option String × LitState :=
  if s.litName lid ∈ s.enumLits.map s.litName then
    (some "An enumeration cannot have two literals with the same name", s)
  else
    (none, { s with enumLits := lid :: s.enumLits })

/-! ### Generalization construction and its setters

State: per-class generalization back-reference sets (`Class.generalizations`,
maintained by `_add_generalization` / `_delete_generalization`), plus the
fields of the one generalization object `gid` under construction
(`none` models the attribute not existing yet, i.e. `hasattr` false). -/

structure GState where
  cgens : Nat → Finset Nat
  ggeneral : Option Nat
  gspecific : Option Nat

/-- `Class._delete_generalization` on class `c`. -/
def delGenFrom (gid c : Nat) (s : GState) : GState :=
  { s with cgens := Function.update s.cgens c ((s.cgens c).erase gid) }

/-- `Class._add_generalization` on class `c`. -/
def addGenTo (gid c : Nat) (s : GState) : GState :=
  { s with cgens := Function.update s.cgens c (insert gid (s.cgens c)) }

/-- The `Generalization.general` setter: remove the back-reference from
the old general (if the field exists), add it to the new one, store the
field.  It performs no validation and never raises. -/
def setGeneral (gid : Nat) (s : GState) (general : Nat) : GState :=
  let s1 := match s.ggeneral with
    | some old => delGenFrom gid old s
    | none => s
  { addGenTo gid general s1 with ggeneral := some general }

/-- The `Generalization.specific` setter: raises if the candidate equals
the stored general (self generalization); otherwise removes the old
back-reference (if any), adds the new one and stores the field.  On a
raise the state is returned as it was (the check precedes all
mutations). -/
def setSpecific (gid : Nat) (s : GState) (specific : Nat) :
    Option String × GState :=
  if some specific = s.ggeneral then
    (some "A class cannot be a generalization of itself.", s)
  else
    let s1 := match s.gspecific with
      | some old => delGenFrom gid old s
      | none => s
    (none, { addGenTo gid specific s1 with gspecific := some specific })

/-- `Generalization.__init__(general, specific)`: assign `self.general`
first (which mutates the general's back-reference set), then
`self.specific` (which validates).  An error raised by the specific
setter propagates, but the general setter's mutations persist. -/
def genInitRun (gid : Nat) (cg : Nat → Finset Nat) (general specific : Nat) :
    Option String × GState :=
  let s1 := setGeneral gid ⟨cg, none, none⟩ general
  setSpecific gid s1 specific

/-! ### DomainModel collection setters

Collections are embedded as lists of (object id, name) pairs — the list
is the iteration order of the Python set.  Generalizations carry no
name (they are `Element`s, not `NamedElement`s) and are embedded as bare
ids. -/

structure DMState where
  types : List (Nat × String)
  associations : List (Nat × String)
  generalizations : List Nat
  packages : List (Nat × String)
  constraints : List (Nat × String)
deriving DecidableEq

/-- The `names_seen` / `duplicates` loop shared by the `types`,
`associations` and `packages` setters: walk the names, recording each,
and collect every name already seen. -/
def scanDupsAux : List String → List String → List String → List String
  | [], _, dups => dups
  | n :: rest, seen, dups =>
      scanDupsAux rest (n :: seen) (if n ∈ seen then n :: dups else dups)

/-- The duplicate names found by the scan loop (the setter raises iff
this is nonempty). -/
def scanDups (names : List String) : List String := scanDupsAux names [] []

/-- The fixed primitive data types (`primitive_data_types`), as (id,
name) pairs; the ids are outside the range a user model would use. -/
def primTypes : List (Nat × String) :=
  (List.range primitiveNames.length).zip primitiveNames |>.map
    (fun p => (1000 + p.1, p.2))

/-- `types | primitive_data_types`: the candidate collection unioned
(by object identity) with the primitive data types. -/
def typesUnion (new : List (Nat × String)) : List (Nat × String) :=
  new ++ primTypes.filter (fun p => ¬ new.any (fun t => t.1 = p.1))

/-- The `DomainModel.types` setter: unions the candidate collection with
the primitive data types, scans the union for duplicate names, raises
if any, and otherwise stores the union. -/
def typesSetter (s : DMState) (new : List (Nat × String)) :
    Option String × DMState :=
  let all := typesUnion new
  if scanDups (all.map Prod.snd) ≠ [] then
    (some "The model cannot have types with duplicate names", s)
  else (none, { s with types := all })

/-- The `DomainModel.associations` setter: scans the candidate
collection for duplicate names; raises if any, else stores it. -/
def associationsSetter (s : DMState) (new : List (Nat × String)) :
    Option String × DMState :=
  if scanDups (new.map Prod.snd) ≠ [] then
    (some "The model cannot have associations with duplicate names", s)
  else (none, { s with associations := new })

/-- The `DomainModel.packages` setter: same scan as associations. -/
def packagesSetter (s : DMState) (new : List (Nat × String)) :
    Option String × DMState :=
  if scanDups (new.map Prod.snd) ≠ [] then
    (some "The model cannot have packages with duplicate names", s)
  else (none, { s with packages := new })

/-- The `DomainModel.constraints` setter: duplicate check via
`len(names) != len(set(names))`; raises if they differ, else stores. -/
def constraintsSetter (s : DMState) (new : List (Nat × String)) :
    Option String × DMState :=
  if (new.map Prod.snd).length ≠ (new.map Prod.snd).dedup.length then
    (some "The model cannot have two constraints with the same name.", s)
  else (none, { s with constraints := new })

/-- The `DomainModel.generalizations` setter: stores the collection with
no validation whatsoever. -/
def generalizationsSetter (s : DMState) (new : List Nat) :
    Option String × DMState :=
  (none, { s with generalizations := new })

/-! ### Association ends and class back-references

State for C1: property (end) objects have an immutable `type` (the ends
setter never changes a property's type) and a mutable `owner`; each
association id has its current list of ends; each class id has its
`associations` back-reference set, maintained by `_add_association` /
`_delete_association`. -/

structure AState where
  ptype : Nat → Nat
  powner : Nat → Option Nat
  aends : Nat → List Nat
  cassocs : Nat → Finset Nat

/-- One iteration of the removal loop of the `ends` setter:
`end.type._delete_association(association=self)`. -/
def delOldEnd (A : Nat) (s : AState) (e : Nat) : AState :=
  { s with cassocs :=
      Function.update s.cassocs (s.ptype e) ((s.cassocs (s.ptype e)).erase A) }

/-- One iteration of the addition loop of the `ends` setter:
`end.owner = self; end.type._add_association(association=self)`. -/
def addNewEnd (A : Nat) (s : AState) (e : Nat) : AState :=
  { s with
      powner := Function.update s.powner e (some A),
      cassocs :=
        Function.update s.cassocs (s.ptype e) (insert A (s.cassocs (s.ptype e))) }

/-- The `Association.ends` setter: validates the arity, removes the
association from every old end's type, then registers every new end
(owner and back-reference), finally stores the new ends.  During
`__init__` the association's stored ends list is empty, which makes the
removal loop a no-op, exactly like the `hasattr` guard. -/
def setEnds (s : AState) (A : Nat) (newEnds : List Nat) :
    Except String AState :=
  if newEnds.length ≤ 1 then
    .error "An association must have more than one end."
  else
    let s1 := (s.aends A).foldl (delOldEnd A) s
    let s2 := newEnds.foldl (addNewEnd A) s1
    .ok { s2 with aends := Function.update s2.aends A newEnds }

/-- The back-reference invariant of C1: a class's `associations` set
contains an association exactly when some current end of that
association is typed to the class. -/
def BackRefInv (s : AState) : Prop :=
  ∀ C A, A ∈ s.cassocs C ↔ ∃ e ∈ s.aends A, s.ptype e = C

/-! ### Class.association_ends (C7)

The class's `associations` back-reference set is embedded as a list of
associations (its iteration order), an association as the list of its
end ids (its end set's iteration order), with `ptype` giving each end's
type.  `selfC` is the class on which the method is called. -/

/-- The guard `len(l_aends) == 2 and l_aends[0].type == l_aends[1].type`
of `association_ends`. -/
def sameTypePair (ptype : Nat → Nat) (l : List Nat) : Bool :=
  match l with
  | [a, b] => ptype a = ptype b
  | _ => false

/-- The loop body of `Class.association_ends` for one association:
`ends.update(aends)` and then, unless the association is a two-ended
same-typed one, `ends.discard(end)` for its ends typed to this class. -/
def aeStep (ptype : Nat → Nat) (selfC : Nat) (ends : Finset Nat)
    (aends : List Nat) : Finset Nat :=
  let ends1 := aends.foldl (fun s e => insert e s) ends
  if sameTypePair ptype aends then ends1
  else aends.foldl (fun s e => if ptype e = selfC then s.erase e else s) ends1

/-- `Class.association_ends`: accumulate every end of every association
of the class, but for each association that is not a two-ended
same-typed (self) association, discard its ends that are typed to this
class. -/
def association_ends (ptype : Nat → Nat) (selfC : Nat)
    (assocs : List (List Nat)) : Finset Nat :=
  assocs.foldl (aeStep ptype selfC) ∅

/-- What one association contributes to `association_ends`: all its ends
if it is a two-ended same-typed association, otherwise its ends not
typed to this class. -/
def endContribution (ptype : Nat → Nat) (selfC : Nat) (aends : List Nat) :
    Finset Nat :=
  if sameTypePair ptype aends then aends.toFinset
  else (aends.filter (fun e => ptype e ≠ selfC)).toFinset

/-! ### Generalization graph: parents, all_parents, attributes (C3, C6)

A model's generalization objects are embedded as a list of (general,
specific) class-id pairs; a class's `generalizations` back-reference
set is exactly the generalizations it participates in (the init and
both setters keep it so).  `Class.all_parents` recurses with no cycle
guard, so it is embedded with explicit fuel: `none` means the Python
recursion does not terminate within the given depth. -/

/-- The `Class.generalizations` back-reference set of class `c`. -/
def gensOf (gens : List (Nat × Nat)) (c : Nat) : List (Nat × Nat) :=
  gens.filter (fun g => g.1 = c ∨ g.2 = c)

/-- `Class.parents`: the generals of the class's generalizations, the
class itself excluded. -/
def parents (gens : List (Nat × Nat)) (c : Nat) : List Nat :=
  ((gensOf gens c).filter (fun g => g.1 ≠ c)).map Prod.fst

/-- `b` is a direct parent of `a`. -/
def pstep (gens : List (Nat × Nat)) (a b : Nat) : Prop :=
  b ∈ parents gens a

/-- `Class.all_parents`, fuel-indexed: the direct parents unioned with
the recursive `all_parents` of each parent.  Runs out of fuel (`none`)
exactly on the inputs where the unguarded Python recursion would not
return. -/
def all_parents (gens : List (Nat × Nat)) : Nat → Nat → Option (Finset Nat)
  | 0, _ => none
  | fuel + 1, c =>
    (parents gens c).foldl
      (fun acc p =>
        match acc, all_parents gens fuel p with
        | some S, some T => some (S ∪ T)
        | _, _ => none)
      (some (parents gens c).toFinset)

/-- `Class.inherited_attributes`: the union of the attribute sets of
all (transitive) parents. -/
def inherited_attributes (gens : List (Nat × Nat)) (attrs : Nat → Finset Nat)
    (fuel c : Nat) : Option (Finset Nat) :=
  (all_parents gens fuel c).map (fun ps => ps.biUnion attrs)

/-- `Class.all_attributes`: own attributes unioned with the inherited
ones. -/
def all_attributes (gens : List (Nat × Nat)) (attrs : Nat → Finset Nat)
    (fuel c : Nat) : Option (Finset Nat) :=
  (inherited_attributes gens attrs fuel c).map (fun inh => attrs c ∪ inh)

/-! ### classes_sorted_by_inheritance (C2)

`DomainModel.classes_sorted_by_inheritance` builds `child_map` (from
each class's `generalizations` back-reference set), runs a shared
depth-first postorder traversal from every unvisited class and reverses
the result.  The class set's iteration order is the `classes` list; the
iteration order of each `child_map` set is a parameter `childL`
constrained to have exactly the `child_map` membership. -/

/-- A generalization edge from general `a` to specific `b`. -/
def genEdge (gens : List (Nat × Nat)) (a b : Nat) : Prop := (a, b) ∈ gens

/-- Membership in the `child_map` built by
`classes_sorted_by_inheritance`: `c` is registered as a child of `P`
when iterating `c.generalizations` finds a generalization whose general
is `P`. -/
def childEdge (gens : List (Nat × Nat)) (classes : List Nat)
    (P c : Nat) : Prop :=
  c ∈ classes ∧ ∃ g ∈ gensOf gens c, g.1 = P

/-- The `child_map` as a computable function, children listed in the
class-list order (one possible iteration order of the Python set). -/
def childMap (gens : List (Nat × Nat)) (classes : List Nat)
    (P : Nat) : List Nat :=
  classes.filter (fun c => (gensOf gens c).any (fun g => g.1 = P))

/-- The recursive `dfs` helper: mark the class visited, recurse into
its unvisited children, then append the class (postorder).  Fuel bounds
the recursion depth; the caller supplies enough for the visited set to
absorb every class. -/
def dfsGo (childL : Nat → List Nat) :
    Nat → Nat → Finset Nat × List Nat → Finset Nat × List Nat
  | 0, _, st => st
  | fuel + 1, cl, st =>
    let st2 := (childL cl).foldl
      (fun s child => if child ∈ s.1 then s else dfsGo childL fuel child s)
      (insert cl st.1, st.2)
    (st2.1, st2.2 ++ [cl])

/-- The loop body of the child fold inside `dfs`: skip visited
children, recurse into unvisited ones. -/
def dfsStep (childL : Nat → List Nat) (fuel : Nat)
    (s : Finset Nat × List Nat) (child : Nat) : Finset Nat × List Nat :=
  if child ∈ s.1 then s else dfsGo childL fuel child s

/-- `DomainModel.classes_sorted_by_inheritance`: run `dfs` from every
not-yet-visited class with a shared visited set, then reverse the
postorder list. -/
def classes_sorted_by_inheritance (childL : Nat → List Nat)
    (classes : List Nat) : List Nat :=
  (classes.foldl
    (fun st cl => if cl ∈ st.1 then st else dfsGo childL classes.length cl st)
    (∅, [])).2.reverse

/-- `v` occurs strictly before `u` in `l`. -/
def Before (l : List Nat) (v u : Nat) : Prop :=
  ∃ i j, ∃ hi : i < l.length, ∃ hj : j < l.length,
    i < j ∧ l[i] = v ∧ l[j] = u

/-- The invariant the dfs maintains on the accumulated (visited,
postorder) state: the postorder list has no duplicates, contains only
visited nodes, and every emitted node's distinct children are emitted
before it. -/
structure DfsInv (childL : Nat → List Nat) (vis : Finset Nat)
    (sorted : List Nat) : Prop where
  nodup : sorted.Nodup
  sub : ∀ x ∈ sorted, x ∈ vis
  ordered : ∀ u ∈ sorted, ∀ v ∈ childL u, v ≠ u →
    v ∈ sorted ∧ Before sorted v u

/-- A concrete association state used to instantiate the C1 theorem:
association 100 currently has ends 1 and 2 (each property's type is the
class with the same number), and classes 1 and 2 back-reference it. -/
def wAState : AState where
  ptype := fun e => e
  powner := fun _ => some 100
  aends := fun a => if a = 100 then [1, 2] else []
  cassocs := fun c => if c = 1 ∨ c = 2 then {100} else ∅

end BUML

namespace BUML

/-! ## Theorems -/

/-! ### Supporting lemmas for the ends setter (C1) -/

theorem delOldEnd_ptype (A : Nat) (s : AState) (e : Nat) :
    (delOldEnd A s e).ptype = s.ptype := rfl

theorem delOldEnd_aends (A : Nat) (s : AState) (e : Nat) :
    (delOldEnd A s e).aends = s.aends := rfl

theorem addNewEnd_ptype (A : Nat) (s : AState) (e : Nat) :
    (addNewEnd A s e).ptype = s.ptype := rfl

theorem addNewEnd_aends (A : Nat) (s : AState) (e : Nat) :
    (addNewEnd A s e).aends = s.aends := rfl

/-- Fields untouched by the removal loop. -/
theorem delLoop_fields (A : Nat) (l : List Nat) :
    ∀ s : AState, ((l.foldl (delOldEnd A) s).ptype = s.ptype ∧
      (l.foldl (delOldEnd A) s).powner = s.powner ∧
      (l.foldl (delOldEnd A) s).aends = s.aends) := by
  induction l with
  | nil => intro s; exact ⟨rfl, rfl, rfl⟩
  | cons e l ih =>
    intro s
    simpa [List.foldl_cons, delOldEnd] using ih (delOldEnd A s e)

/-- Fields untouched by the addition loop. -/
theorem addLoop_fields (A : Nat) (l : List Nat) :
    ∀ s : AState, ((l.foldl (addNewEnd A) s).ptype = s.ptype ∧
      (l.foldl (addNewEnd A) s).aends = s.aends) := by
  induction l with
  | nil => intro s; exact ⟨rfl, rfl⟩
  | cons e l ih =>
    intro s
    simpa [List.foldl_cons, addNewEnd] using ih (addNewEnd A s e)

/-- Membership after a single removal step. -/
theorem mem_delOldEnd {A : Nat} {s : AState} {e C B : Nat} :
    B ∈ (delOldEnd A s e).cassocs C ↔
      B ∈ s.cassocs C ∧ (B ≠ A ∨ s.ptype e ≠ C) := by
  show B ∈ Function.update s.cassocs (s.ptype e)
    ((s.cassocs (s.ptype e)).erase A) C ↔ _
  by_cases hC : C = s.ptype e
  · subst hC
    rw [Function.update_same, Finset.mem_erase]
    tauto
  · rw [Function.update_noteq hC]
    have hC' : s.ptype e ≠ C := fun h => hC h.symm
    tauto

/-- Membership after a single addition step. -/
theorem mem_addNewEnd {A : Nat} {s : AState} {e C B : Nat} :
    B ∈ (addNewEnd A s e).cassocs C ↔
      B ∈ s.cassocs C ∨ (B = A ∧ s.ptype e = C) := by
  show B ∈ Function.update s.cassocs (s.ptype e)
    (insert A (s.cassocs (s.ptype e))) C ↔ _
  by_cases hC : C = s.ptype e
  · subst hC
    rw [Function.update_same, Finset.mem_insert]
    tauto
  · rw [Function.update_noteq hC]
    have hC' : ¬ s.ptype e = C := fun h => hC h.symm
    tauto

/-- Membership in a class's back-reference set after the removal loop:
for the association being rewired, `A` survives iff it was there and the
class types none of the removed ends; other associations are
untouched. -/
theorem delLoop_cassocs (A : Nat) (l : List Nat) :
    ∀ (s : AState) (C B : Nat),
      (B ∈ (l.foldl (delOldEnd A) s).cassocs C ↔
        (B ∈ s.cassocs C ∧ (B ≠ A ∨ ∀ e ∈ l, s.ptype e ≠ C))) := by
  induction l with
  | nil => intro s C B; simp
  | cons e l ih =>
    intro s C B
    rw [List.foldl_cons, ih, mem_delOldEnd]
    simp only [delOldEnd_ptype, List.forall_mem_cons]
    tauto

/-- Membership in a class's back-reference set after the addition loop:
`A` is added to the set of every class typing a new end; other
associations are untouched. -/
theorem addLoop_cassocs (A : Nat) (l : List Nat) :
    ∀ (s : AState) (C B : Nat),
      (B ∈ (l.foldl (addNewEnd A) s).cassocs C ↔
        (B ∈ s.cassocs C ∨ (B = A ∧ ∃ e ∈ l, s.ptype e = C))) := by
  induction l with
  | nil => intro s C B; simp
  | cons e l ih =>
    intro s C B
    rw [List.foldl_cons, ih, mem_addNewEnd]
    simp only [addNewEnd_ptype, List.exists_mem_cons_iff]
    tauto

/-- Owners after the addition loop: every end of the loop now has owner
`A`; other properties keep their owner. -/
theorem addLoop_powner (A : Nat) (l : List Nat) :
    ∀ (s : AState) (e : Nat),
      ((l.foldl (addNewEnd A) s).powner e =
        if e ∈ l then some A else s.powner e) := by
  induction l with
  | nil => intro s e; simp
  | cons x l ih =>
    intro s e
    rw [List.foldl_cons, ih]
    by_cases hel : e ∈ l
    · simp [hel, List.mem_cons]
    · by_cases hex : e = x
      · subst hex
        simp [hel, addNewEnd, Function.update]
      · simp [hel, hex, addNewEnd, Function.update]

/-- The scan loop finds no duplicate iff the remaining names are fresh
and mutually distinct and no duplicate was recorded yet. -/
theorem scanDupsAux_eq_nil {rest : List String} :
    ∀ {seen dups : List String},
      scanDupsAux rest seen dups = [] ↔
        dups = [] ∧ rest.Nodup ∧ ∀ n ∈ rest, n ∉ seen := by
  induction rest with
  | nil => simp [scanDupsAux]
  | cons n rest ih =>
    intro seen dups
    rw [scanDupsAux, ih]
    by_cases hn : n ∈ seen
    · simp only [if_pos hn]
      constructor
      · rintro ⟨h, -⟩; exact absurd h (List.cons_ne_nil n dups)
      · rintro ⟨-, -, hfresh⟩
        exact absurd hn (hfresh n (List.mem_cons_self n rest))
    · simp only [if_neg hn, List.nodup_cons]
      constructor
      · rintro ⟨hd, hnd, hfresh⟩
        refine ⟨hd, ⟨?_, hnd⟩, ?_⟩
        · intro hmem
          exact (hfresh n hmem) (List.mem_cons_self n seen)
        · intro m hm
          rcases List.mem_cons.mp hm with rfl | hm'
          · exact hn
          · intro hs
            exact (hfresh m hm') (List.mem_cons_of_mem n hs)
      · rintro ⟨hd, ⟨hnin, hnd⟩, hfresh⟩
        refine ⟨hd, hnd, ?_⟩
        intro m hm hmem
        rcases List.mem_cons.mp hmem with rfl | hs
        · exact hnin hm
        · exact hfresh m (List.mem_cons_of_mem n hm) hs

/-- The scan raises nothing exactly when the name list has no
duplicates. -/
theorem scanDups_eq_nil_iff (names : List String) :
    scanDups names = [] ↔ names.Nodup := by
  rw [scanDups, scanDupsAux_eq_nil]
  simp

/-- The length-vs-dedup check of the constraints setter is also
equivalent to name nodup-ness. -/
theorem dedup_length_eq_iff (names : List String) :
    names.length = names.dedup.length ↔ names.Nodup := by
  constructor
  · intro h
    have hsub : names.dedup.Sublist names := names.dedup_sublist
    have : names.dedup = names := hsub.eq_of_length h.symm
    rw [← this]
    exact names.nodup_dedup
  · intro h
    have hself : names.dedup = names := (List.dedup_eq_self (l := names)).mpr h
    rw [hself]

/-- A successful association-list lookup returns one of the stored
values. -/
theorem lookup_val_mem {l : List (String × String)} {s p : String}
    (h : l.lookup s = some p) : p ∈ l.map Prod.snd := by
  induction l with
  | nil => simp [List.lookup] at h
  | cons kv l ih =>
    obtain ⟨k, v⟩ := kv
    rw [List.lookup] at h
    cases hkv : (s == k) with
    | true => rw [hkv] at h; simp only [Option.some.injEq] at h; simp [h]
    | false => rw [hkv] at h; simp only [List.map_cons, List.mem_cons]; exact Or.inr (ih h)

/-- C1: rewiring an association's ends preserves the back-reference
invariant — afterwards a class's `associations` set contains an
association exactly when some current end of it is typed to the class,
never doubled (the sets are `Finset`s) and never stale.  Moreover each
new end's owner is the association; the association has left the
back-reference set of each old end's type unless some new end has that
type; and it is present in every new end's type's set. -/
theorem c1_ends_rewiring (s s' : AState) (A : Nat) (newEnds : List Nat)
    (hinv : BackRefInv s) (hok : setEnds s A newEnds = .ok s') :
    BackRefInv s' ∧
    (∀ e ∈ newEnds, s'.powner e = some A) ∧
    (∀ e ∈ s.aends A, (∀ e' ∈ newEnds, s.ptype e' ≠ s.ptype e) →
      A ∉ s'.cassocs (s.ptype e)) ∧
    (∀ e ∈ newEnds, A ∈ s'.cassocs (s.ptype e)) ∧
    s'.aends A = newEnds ∧ s'.ptype = s.ptype := by
  by_cases hlen : newEnds.length ≤ 1
  · simp [setEnds, hlen] at hok
  · rw [setEnds, if_neg hlen] at hok
    set s1 := (s.aends A).foldl (delOldEnd A) s with hs1
    set s2 := newEnds.foldl (addNewEnd A) s1 with hs2
    have hs' : s' = { s2 with aends := Function.update s2.aends A newEnds } := by
      cases hok; rfl
    obtain ⟨hpt1, hpo1, hae1⟩ := delLoop_fields A (s.aends A) s
    obtain ⟨hpt2, hae2⟩ := addLoop_fields A newEnds s1
    have hpt : s2.ptype = s.ptype := by rw [← hs2] at hpt2; rw [hpt2, hpt1]
    have hae : s2.aends = s.aends := by rw [← hs2] at hae2; rw [hae2, hae1]
    have hmem2 : ∀ C B, B ∈ s2.cassocs C ↔
        (B ∈ s.cassocs C ∧ (B ≠ A ∨ ∀ e ∈ s.aends A, s.ptype e ≠ C)) ∨
        (B = A ∧ ∃ e ∈ newEnds, s.ptype e = C) := by
      intro C B
      rw [hs2, addLoop_cassocs, hs1, delLoop_cassocs]
      have : s1.ptype = s.ptype := hpt1
      rw [this]
    refine ⟨?_, ?_, ?_, ?_, ?_, ?_⟩
    · intro C B
      rw [hs', ]
      show B ∈ s2.cassocs C ↔ ∃ e ∈ Function.update s2.aends A newEnds B, s2.ptype e = C
      rw [hmem2, hpt]
      by_cases hBA : B = A
      · subst hBA
        rw [Function.update_same]
        constructor
        · rintro (⟨hmem, h⟩ | ⟨-, h⟩)
          · rcases h with h | h
            · exact absurd rfl h
            · obtain ⟨e, he, hty⟩ := (hinv C B).mp hmem
              exact absurd hty (h e he)
          · exact h
        · intro h
          exact Or.inr ⟨rfl, h⟩
      · rw [Function.update_noteq hBA, hae]
        constructor
        · rintro (⟨hmem, -⟩ | ⟨h, -⟩)
          · exact (hinv C B).mp hmem
          · exact absurd h hBA
        · intro h
          exact Or.inl ⟨(hinv C B).mpr h, Or.inl hBA⟩
    · intro e he
      have : s'.powner = s2.powner := by rw [hs']
      rw [this, hs2, addLoop_powner, if_pos he]
    · intro e he hno
      have : s'.cassocs = s2.cassocs := by rw [hs']
      rw [this, hmem2]
      rintro (⟨-, h⟩ | ⟨-, e', he', hty⟩)
      · rcases h with h | h
        · exact h rfl
        · exact h e he rfl
      · exact hno e' he' hty
    · intro e he
      have : s'.cassocs = s2.cassocs := by rw [hs']
      rw [this, hmem2]
      exact Or.inr ⟨rfl, e, he, rfl⟩
    · rw [hs']
      show Function.update s2.aends A newEnds A = newEnds
      rw [Function.update_same]
    · have : s'.ptype = s2.ptype := by rw [hs']
      rw [this, hpt]

/-- C1 witness: rewiring association 100 from ends `[1, 2]` (types 1, 2)
to ends `[3, 4]` (types 3, 4) in a concrete well-formed state: the
invariant is re-established, classes 1 and 2 drop the association,
classes 3 and 4 gain it, and both new ends are owned by it. -/
theorem c1_ends_rewiring_witness :
    ∃ s' : AState, setEnds wAState 100 [3, 4] = .ok s' ∧ BackRefInv s' ∧
      (∀ e ∈ [3, 4], s'.powner e = some 100) ∧
      (∀ e ∈ wAState.aends 100,
        (∀ e' ∈ [3, 4], wAState.ptype e' ≠ wAState.ptype e) →
          100 ∉ s'.cassocs (wAState.ptype e)) ∧
      (∀ e ∈ [3, 4], 100 ∈ s'.cassocs (wAState.ptype e)) := by
  have hinv : BackRefInv wAState := by
    intro C B
    show B ∈ (if C = 1 ∨ C = 2 then ({100} : Finset Nat) else ∅) ↔
      ∃ e ∈ (if B = 100 then [1, 2] else []), e = C
    by_cases hC : C = 1 ∨ C = 2
    · rw [if_pos hC, Finset.mem_singleton]
      constructor
      · rintro rfl
        rw [if_pos rfl]
        rcases hC with rfl | rfl
        · exact ⟨1, by simp, rfl⟩
        · exact ⟨2, by simp, rfl⟩
      · rintro ⟨e, he, rfl⟩
        by_cases hB : B = 100
        · exact hB
        · rw [if_neg hB] at he; cases he
    · rw [if_neg hC]
      simp only [Finset.not_mem_empty, false_iff, not_exists]
      intro e
      by_cases hB : B = 100
      · rw [if_pos hB]
        rintro ⟨he, hec⟩
        rcases List.mem_cons.mp he with rfl | h
        · exact hC (Or.inl hec.symm)
        · rcases List.mem_cons.mp h with rfl | h
          · exact hC (Or.inr hec.symm)
          · cases h
      · rw [if_neg hB]
        rintro ⟨he, -⟩
        cases he
  obtain ⟨s', hok⟩ : ∃ s', setEnds wAState 100 [3, 4] = .ok s' := ⟨_, rfl⟩
  have h := c1_ends_rewiring wAState s' 100 [3, 4] hinv hok
  exact ⟨s', hok, h.1, h.2.1, h.2.2.1, h.2.2.2.1⟩

/-! ### Supporting lemmas for all_parents (C3, C6) -/

/-- Head decomposition of a transitive closure step. -/
theorem transGen_head_decomp {r : Nat → Nat → Prop} {a b : Nat} :
    Relation.TransGen r a b ↔ r a b ∨ ∃ c, r a c ∧ Relation.TransGen r c b := by
  constructor
  · intro h
    rw [Relation.TransGen.head'_iff] at h
    obtain ⟨c, hac, hcb⟩ := h
    rcases Relation.reflTransGen_iff_eq_or_transGen.mp hcb with rfl | htg
    · exact Or.inl hac
    · exact Or.inr ⟨c, hac, htg⟩
  · rintro (h | ⟨c, hac, hcb⟩)
    · exact Relation.TransGen.single h
    · exact Relation.TransGen.head hac hcb

/-- A relation admitting a strictly increasing rank has no transitive
cycle. -/
theorem acyclic_of_rank {r : Nat → Nat → Prop} (m : Nat → Nat)
    (hm : ∀ a b, r a b → m a < m b) : ∀ a, ¬ Relation.TransGen r a a := by
  have hlt : ∀ a b, Relation.TransGen r a b → m a < m b := by
    intro a b h
    induction h with
    | single h => exact hm _ _ h
    | tail _ h ih => exact ih.trans (hm _ _ h)
  intro a h
  exact absurd (hlt a a h) (lt_irrefl _)

/-- The union-accumulating fold of `all_parents` is absorbing in
`none`. -/
theorem apFold_none (gens : List (Nat × Nat)) (fuel : Nat) (l : List Nat) :
    l.foldl (fun acc p =>
      match acc, all_parents gens fuel p with
      | some S, some T => some (S ∪ T)
      | _, _ => none) none = none := by
  induction l with
  | nil => rfl
  | cons p l ih =>
    rw [List.foldl_cons]
    have hstep : (match (none : Option (Finset Nat)), all_parents gens fuel p with
        | some S, some T => some (S ∪ T)
        | _, _ => none) = none := by
      cases all_parents gens fuel p <;> rfl
    rw [hstep]
    exact ih

/-- A successful union fold means every recursive call succeeded, and
characterizes the members of the result. -/
theorem apFold_some_iff (gens : List (Nat × Nat)) (fuel : Nat) :
    ∀ (l : List Nat) (init U : Finset Nat),
      l.foldl (fun acc p =>
        match acc, all_parents gens fuel p with
        | some S, some T => some (S ∪ T)
        | _, _ => none) (some init) = some U →
      (∀ p ∈ l, ∃ T, all_parents gens fuel p = some T) ∧
      ∀ x, (x ∈ U ↔ x ∈ init ∨
        ∃ p ∈ l, ∃ T, all_parents gens fuel p = some T ∧ x ∈ T) := by
  intro l
  induction l with
  | nil =>
    intro init U h
    rw [List.foldl_nil, Option.some_inj] at h
    subst h
    exact ⟨by simp, by simp⟩
  | cons p l ih =>
    intro init U h
    rw [List.foldl_cons] at h
    cases hap : all_parents gens fuel p with
    | none =>
      rw [hap] at h
      rw [show (match (some init), (none : Option (Finset Nat)) with
        | some S, some T => some (S ∪ T)
        | _, _ => none) = none from rfl] at h
      rw [apFold_none] at h
      cases h
    | some T =>
      rw [hap] at h
      rw [show (match (some init), (some T) with
        | some S, some T => some (S ∪ T)
        | _, _ => none) = some (init ∪ T) from rfl] at h
      obtain ⟨hall, hchar⟩ := ih (init ∪ T) U h
      constructor
      · intro q hq
        rcases List.mem_cons.mp hq with rfl | hq
        · exact ⟨T, hap⟩
        · exact hall q hq
      · intro x
        rw [hchar x, Finset.mem_union]
        simp only [List.exists_mem_cons_iff]
        constructor
        · rintro ((hx | hx) | hrest)
          · exact Or.inl hx
          · exact Or.inr (Or.inl ⟨T, hap, hx⟩)
          · exact Or.inr (Or.inr hrest)
        · rintro (hx | (⟨T', hT', hx⟩ | hrest))
          · exact Or.inl (Or.inl hx)
          · rw [hap, Option.some_inj] at hT'
            exact Or.inl (Or.inr (hT' ▸ hx))
          · exact Or.inr hrest

/-- If every recursive call succeeds the union fold succeeds. -/
theorem apFold_some_of_all (gens : List (Nat × Nat)) (fuel : Nat) :
    ∀ (l : List Nat) (init : Finset Nat),
      (∀ p ∈ l, ∃ T, all_parents gens fuel p = some T) →
      ∃ U, l.foldl (fun acc p =>
        match acc, all_parents gens fuel p with
        | some S, some T => some (S ∪ T)
        | _, _ => none) (some init) = some U := by
  intro l
  induction l with
  | nil => intro init _; exact ⟨init, rfl⟩
  | cons p l ih =>
    intro init hall
    obtain ⟨T, hT⟩ := hall p (List.mem_cons_self p l)
    obtain ⟨U, hU⟩ := ih (init ∪ T)
      (fun q hq => hall q (List.mem_cons_of_mem p hq))
    refine ⟨U, ?_⟩
    rw [List.foldl_cons, hT]
    exact hU

/-- Whenever `all_parents` returns a set, that set is exactly the
transitive closure of the direct parents. -/
theorem all_parents_sound (gens : List (Nat × Nat)) :
    ∀ (fuel c : Nat) (S : Finset Nat),
      all_parents gens fuel c = some S →
      ∀ b, (b ∈ S ↔ Relation.TransGen (pstep gens) c b) := by
  intro fuel
  induction fuel with
  | zero => intro c S h; cases h
  | succ fuel ih =>
    intro c S h b
    rw [show all_parents gens (fuel + 1) c =
      (parents gens c).foldl (fun acc p =>
        match acc, all_parents gens fuel p with
        | some S, some T => some (S ∪ T)
        | _, _ => none) (some (parents gens c).toFinset) from rfl] at h
    obtain ⟨hall, hchar⟩ := apFold_some_iff gens fuel (parents gens c) _ S h
    rw [hchar b, List.mem_toFinset, transGen_head_decomp]
    constructor
    · rintro (hb | ⟨p, hp, T, hT, hbT⟩)
      · exact Or.inl hb
      · exact Or.inr ⟨p, hp, (ih p T hT b).mp hbT⟩
    · rintro (hb | ⟨p, hp, htg⟩)
      · exact Or.inl hb
      · obtain ⟨T, hT⟩ := hall p hp
        exact Or.inr ⟨p, hp, T, hT, (ih p T hT b).mpr htg⟩

/-- The union fold only depends on the values of the recursive calls. -/
theorem apFold_congr (gens : List (Nat × Nat)) (f1 f2 : Nat) :
    ∀ (l : List Nat) (a : Option (Finset Nat)),
      (∀ p ∈ l, all_parents gens f1 p = all_parents gens f2 p) →
      l.foldl (fun acc p =>
        match acc, all_parents gens f1 p with
        | some S, some T => some (S ∪ T)
        | _, _ => none) a =
      l.foldl (fun acc p =>
        match acc, all_parents gens f2 p with
        | some S, some T => some (S ∪ T)
        | _, _ => none) a := by
  intro l
  induction l with
  | nil => intro a _; rfl
  | cons p l ih =>
    intro a hall
    rw [List.foldl_cons, List.foldl_cons,
      hall p (List.mem_cons_self p l)]
    exact ih _ (fun q hq => hall q (List.mem_cons_of_mem p hq))

/-- A successful `all_parents` stays successful (with the same value)
at higher fuel. -/
theorem all_parents_mono (gens : List (Nat × Nat)) :
    ∀ (fuel c : Nat) (S : Finset Nat),
      all_parents gens fuel c = some S →
      all_parents gens (fuel + 1) c = some S := by
  intro fuel
  induction fuel with
  | zero => intro c S h; cases h
  | succ fuel ih =>
    intro c S h
    rw [show all_parents gens (fuel + 1) c =
      (parents gens c).foldl (fun acc p =>
        match acc, all_parents gens fuel p with
        | some S, some T => some (S ∪ T)
        | _, _ => none) (some (parents gens c).toFinset) from rfl] at h
    obtain ⟨hall, -⟩ := apFold_some_iff gens fuel (parents gens c) _ S h
    rw [show all_parents gens (fuel + 1 + 1) c =
      (parents gens c).foldl (fun acc p =>
        match acc, all_parents gens (fuel + 1) p with
        | some S, some T => some (S ∪ T)
        | _, _ => none) (some (parents gens c).toFinset) from rfl]
    rw [← apFold_congr gens fuel (fuel + 1) (parents gens c) _ ?_]
    · exact h
    · intro p hp
      obtain ⟨T, hT⟩ := hall p hp
      rw [hT, ih p T hT]

/-- Fuel monotonicity, `≤` form. -/
theorem all_parents_mono_le (gens : List (Nat × Nat)) {f F c : Nat}
    {S : Finset Nat} (h : f ≤ F) (hs : all_parents gens f c = some S) :
    all_parents gens F c = some S := by
  induction F, h using Nat.le_induction with
  | base => exact hs
  | succ F _ ih => exact all_parents_mono gens F c S ih

/-- A common fuel sufficient for finitely many terminating calls. -/
theorem all_parents_uniform_fuel (gens : List (Nat × Nat)) :
    ∀ l : List Nat,
      (∀ p ∈ l, ∃ f S, all_parents gens f p = some S) →
      ∃ F, ∀ p ∈ l, ∃ S, all_parents gens F p = some S := by
  intro l
  induction l with
  | nil => intro _; exact ⟨0, by simp⟩
  | cons p l ih =>
    intro h
    obtain ⟨F, hF⟩ := ih (fun q hq => h q (List.mem_cons_of_mem p hq))
    obtain ⟨f, S, hS⟩ := h p (List.mem_cons_self p l)
    refine ⟨max f F, ?_⟩
    intro q hq
    rcases List.mem_cons.mp hq with rfl | hq
    · exact ⟨S, all_parents_mono_le gens (le_max_left f F) hS⟩
    · obtain ⟨T, hT⟩ := hF q hq
      exact ⟨T, all_parents_mono_le gens (le_max_right f F) hT⟩

/-- Every direct parent is a general of some generalization. -/
theorem pstep_mem_nodes {gens : List (Nat × Nat)} {a b : Nat}
    (h : pstep gens a b) : b ∈ (gens.map Prod.fst).toFinset := by
  obtain ⟨g, hg, rfl⟩ := List.mem_map.mp h
  rw [List.mem_toFinset]
  exact List.mem_map_of_mem Prod.fst
    (List.mem_of_mem_filter (List.mem_of_mem_filter hg))

/-- With an acyclic parent graph, `all_parents` terminates on every
class: some fuel makes it return a set. -/
theorem all_parents_terminates (gens : List (Nat × Nat))
    (hacyc : ∀ a, ¬ Relation.TransGen (pstep gens) a a) (c : Nat) :
    ∃ fuel S, all_parents gens fuel c = some S := by
  have key : ∀ x : {y // y ∈ (gens.map Prod.fst).toFinset},
      ∃ fuel S, all_parents gens fuel x.val = some S := by
    have hwf : WellFounded (fun a b : {y // y ∈ (gens.map Prod.fst).toFinset} =>
        Relation.TransGen (pstep gens) b.val a.val) := by
      letI : IsTrans {y // y ∈ (gens.map Prod.fst).toFinset}
          (fun a b => Relation.TransGen (pstep gens) b.val a.val) :=
        ⟨fun _ _ _ hab hbc => Relation.TransGen.trans hbc hab⟩
      letI : IsIrrefl {y // y ∈ (gens.map Prod.fst).toFinset}
          (fun a b => Relation.TransGen (pstep gens) b.val a.val) :=
        ⟨fun a h => hacyc a.val h⟩
      exact Finite.wellFounded_of_trans_of_irrefl _
    intro x
    induction x using hwf.induction with
    | _ x ih =>
      have hpar : ∀ p ∈ parents gens x.val, ∃ f S,
          all_parents gens f p = some S := by
        intro p hp
        exact ih ⟨p, pstep_mem_nodes hp⟩ (Relation.TransGen.single hp)
      obtain ⟨F, hF⟩ := all_parents_uniform_fuel gens (parents gens x.val) hpar
      obtain ⟨U, hU⟩ := apFold_some_of_all gens F (parents gens x.val)
        (parents gens x.val).toFinset hF
      exact ⟨F + 1, U, hU⟩
  have hpar : ∀ p ∈ parents gens c, ∃ f S, all_parents gens f p = some S := by
    intro p hp
    exact key ⟨p, pstep_mem_nodes hp⟩
  obtain ⟨F, hF⟩ := all_parents_uniform_fuel gens (parents gens c) hpar
  obtain ⟨U, hU⟩ := apFold_some_of_all gens F (parents gens c)
    (parents gens c).toFinset hF
  exact ⟨F + 1, U, hU⟩

/-! ### Supporting lemmas for classes_sorted_by_inheritance (C2) -/

/-- Ordering facts survive appending on the right. -/
theorem before_append_right {l : List Nat} {v u : Nat}
    (h : Before l v u) (l' : List Nat) : Before (l ++ l') v u := by
  obtain ⟨i, j, hi, hj, hij, hv, hu⟩ := h
  have hi2 : i < (l ++ l').length := by rw [List.length_append]; omega
  have hj2 : j < (l ++ l').length := by rw [List.length_append]; omega
  refine ⟨i, j, hi2, hj2, hij, ?_, ?_⟩
  · rw [List.getElem_append_left hi]; exact hv
  · rw [List.getElem_append_left hj]; exact hu

/-- Everything already in the list comes before a newly appended
element. -/
theorem before_append_self {l : List Nat} {v u : Nat} (h : v ∈ l) :
    Before (l ++ [u]) v u := by
  obtain ⟨i, hi, hv⟩ := List.mem_iff_getElem.mp h
  have hj : l.length < (l ++ [u]).length := by
    rw [List.length_append]; simp
  have hi2 : i < (l ++ [u]).length := by rw [List.length_append]; omega
  refine ⟨i, l.length, hi2, hj, hi, ?_, ?_⟩
  · rw [List.getElem_append_left hi]; exact hv
  · exact List.getElem_concat_length l u l.length rfl hj

/-- In a duplicate-free list, strict precedence is transitive. -/
theorem before_trans {l : List Nat} (hnd : l.Nodup) {a b c : Nat}
    (h1 : Before l a b) (h2 : Before l b c) : Before l a c := by
  obtain ⟨i, j, hi, hj, hij, ha, hb⟩ := h1
  obtain ⟨i2, j2, hi2, hj2, hij2, hb2, hc⟩ := h2
  have hjr : j = i2 := hnd.getElem_inj_iff.mp (hb.trans hb2.symm)
  exact ⟨i, j2, hi, hj2, by omega, ha, hc⟩

/-- Reversing a list swaps precedence. -/
theorem before_reverse {l : List Nat} {v u : Nat} (h : Before l v u) :
    Before l.reverse u v := by
  obtain ⟨i, j, hi, hj, hij, hv, hu⟩ := h
  have hlen : l.reverse.length = l.length := List.length_reverse l
  have hj2 : l.length - 1 - j < l.reverse.length := by omega
  have hi2 : l.length - 1 - i < l.reverse.length := by omega
  refine ⟨l.length - 1 - j, l.length - 1 - i, hj2, hi2, by omega, ?_, ?_⟩
  · rw [List.getElem_reverse]
    have hb : l.length - 1 - (l.length - 1 - j) < l.length := by omega
    have heq : l[l.length - 1 - (l.length - 1 - j)] = l[j] := by congr 1; omega
    exact heq.trans hu
  · rw [List.getElem_reverse]
    have hb : l.length - 1 - (l.length - 1 - i) < l.length := by omega
    have heq : l[l.length - 1 - (l.length - 1 - i)] = l[i] := by congr 1; omega
    exact heq.trans hv

/-- Unfolding of one `dfs` call at positive fuel. -/
theorem dfsGo_succ (childL : Nat → List Nat) (fuel cl : Nat)
    (vis : Finset Nat) (sorted : List Nat) :
    dfsGo childL (fuel + 1) cl (vis, sorted) =
      ((((childL cl).foldl (dfsStep childL fuel) (insert cl vis, sorted)).1),
        (((childL cl).foldl (dfsStep childL fuel) (insert cl vis, sorted)).2
          ++ [cl])) := rfl

/-- Master correctness lemma of the `dfs` recursion: starting from a
well-formed state (the invariant plus the property that every grey
node — visited but not yet emitted — reaches the call target), with
enough fuel for the unvisited classes, `dfs` grows the visited set
within the class set, extends the postorder list, emits the target,
neither creates nor discharges grey nodes, and re-establishes the
invariant. -/
theorem dfsGo_spec (childL : Nat → List Nat) (classesFin : Finset Nat)
    (G : Nat → Nat → Prop)
    (hEcl : ∀ u v, u ∈ classesFin → v ∈ childL u → v ∈ classesFin)
    (hGsub : ∀ u v, u ∈ classesFin → v ∈ childL u → v ≠ u → G u v)
    (hacyc : ∀ a, ¬ Relation.TransGen G a a) :
    ∀ (fuel cl : Nat) (vis : Finset Nat) (sorted : List Nat),
      cl ∈ classesFin → cl ∉ vis → vis ⊆ classesFin →
      (classesFin \ vis).card ≤ fuel →
      DfsInv childL vis sorted →
      (∀ g ∈ vis, g ∉ sorted → Relation.TransGen G g cl) →
      ∀ res, dfsGo childL fuel cl (vis, sorted) = res →
        (vis ⊆ res.1 ∧ res.1 ⊆ classesFin ∧
          (∃ delta, res.2 = sorted ++ delta) ∧
          cl ∈ res.2 ∧
          res.1 \ res.2.toFinset = vis \ sorted.toFinset ∧
          DfsInv childL res.1 res.2) := by
  intro fuel
  induction fuel with
  | zero =>
    intro cl vis sorted hcl hclv hvsub hcard _ _ res _
    exfalso
    have hmem : cl ∈ classesFin \ vis := Finset.mem_sdiff.mpr ⟨hcl, hclv⟩
    have h0 : classesFin \ vis = ∅ :=
      Finset.card_eq_zero.mp (Nat.le_zero.mp hcard)
    rw [h0] at hmem
    exact absurd hmem (Finset.not_mem_empty cl)
  | succ fuel ih =>
    intro cl vis sorted hcl hclv hvsub hcard hinv hreach res hres
    have hclsorted : cl ∉ sorted := fun hc => hclv (hinv.sub cl hc)
    -- fold lemma over any sublist of the children of cl
    have inner : ∀ (l : List Nat), (∀ v ∈ l, v ∈ childL cl) →
        ∀ (vis1 : Finset Nat) (sorted1 : List Nat),
          cl ∈ vis1 → cl ∉ sorted1 →
          vis1 ⊆ classesFin →
          (classesFin \ vis1).card ≤ fuel →
          DfsInv childL vis1 sorted1 →
          (∀ g ∈ vis1, g ∉ sorted1 → g = cl ∨ Relation.TransGen G g cl) →
          ∀ r, l.foldl (dfsStep childL fuel) (vis1, sorted1) = r →
            (vis1 ⊆ r.1 ∧ r.1 ⊆ classesFin ∧
              (classesFin \ r.1).card ≤ fuel ∧
              (∃ d, r.2 = sorted1 ++ d) ∧
              r.1 \ r.2.toFinset = vis1 \ sorted1.toFinset ∧
              DfsInv childL r.1 r.2 ∧
              (∀ v ∈ l, v ∈ r.1)) := by
      intro l
      induction l with
      | nil =>
        intro _ vis1 sorted1 _ _ hsub1 hcard1 hinv1 _ r hr
        rw [List.foldl_nil] at hr
        subst hr
        exact ⟨Finset.Subset.refl _, hsub1, hcard1, ⟨[], by simp⟩, rfl, hinv1,
          by simp⟩
      | cons child l ihl =>
        intro hl vis1 sorted1 hcl1 hcls1 hsub1 hcard1 hinv1 hreach1 r hr
        rw [List.foldl_cons] at hr
        by_cases hmem : child ∈ vis1
        · rw [dfsStep, if_pos hmem] at hr
          obtain ⟨hA1, hA2, hA3, hA4, hA5, hA6, hA7⟩ :=
            ihl (fun v hv => hl v (List.mem_cons_of_mem child hv))
              vis1 sorted1 hcl1 hcls1 hsub1 hcard1 hinv1 hreach1 r hr
          exact ⟨hA1, hA2, hA3, hA4, hA5, hA6, fun v hv => by
            rcases List.mem_cons.mp hv with rfl | hv
            · exact hA1 hmem
            · exact hA7 v hv⟩
        · rw [dfsStep, if_neg hmem] at hr
          have hchildE : child ∈ childL cl := hl child (List.mem_cons_self child l)
          have hchildC : child ∈ classesFin := hEcl cl child hcl hchildE
          have hne : child ≠ cl := fun h => hmem (h ▸ hcl1)
          have hGclchild : G cl child := hGsub cl child hcl hchildE hne
          have hreach2 : ∀ g ∈ vis1, g ∉ sorted1 →
              Relation.TransGen G g child := by
            intro g hg hgs
            rcases hreach1 g hg hgs with rfl | htg
            · exact Relation.TransGen.single hGclchild
            · exact htg.tail hGclchild
          obtain ⟨hB1, hB2, hB3, hB4, hB5, hB6⟩ :=
            ih child vis1 sorted1 hchildC hmem hsub1 hcard1 hinv1 hreach2
              (dfsGo childL fuel child (vis1, sorted1)) rfl
          set mid := dfsGo childL fuel child (vis1, sorted1) with hmid
          have hclmid : cl ∈ mid.1 := hB1 hcl1
          have hclgrey : cl ∈ mid.1 \ mid.2.toFinset := by
            rw [hB5]
            exact Finset.mem_sdiff.mpr
              ⟨hcl1, fun h => hcls1 (List.mem_toFinset.mp h)⟩
          have hclmids : cl ∉ mid.2 := fun hc =>
            (Finset.mem_sdiff.mp hclgrey).2 (List.mem_toFinset.mpr hc)
          have hcard2 : (classesFin \ mid.1).card ≤ fuel :=
            le_trans (Finset.card_le_card
              (Finset.sdiff_subset_sdiff (Finset.Subset.refl _) hB1)) hcard1
          have hreach3 : ∀ g ∈ mid.1, g ∉ mid.2 → g = cl ∨
              Relation.TransGen G g cl := by
            intro g hg hgs
            have hgr : g ∈ vis1 \ sorted1.toFinset := by
              rw [← hB5]
              exact Finset.mem_sdiff.mpr
                ⟨hg, fun h => hgs (List.mem_toFinset.mp h)⟩
            rw [Finset.mem_sdiff] at hgr
            exact hreach1 g hgr.1 (fun h => hgr.2 (List.mem_toFinset.mpr h))
          obtain ⟨hC1, hC2, hC3, hC4, hC5, hC6, hC7⟩ :=
            ihl (fun v hv => hl v (List.mem_cons_of_mem child hv))
              mid.1 mid.2 hclmid hclmids hB2 hcard2 hB6 hreach3 r hr
          obtain ⟨d1, hd1⟩ := hB3
          obtain ⟨d2, hd2⟩ := hC4
          refine ⟨Finset.Subset.trans hB1 hC1, hC2, hC3,
            ⟨d1 ++ d2, by rw [hd2, hd1, List.append_assoc]⟩,
            by rw [hC5, hB5], hC6, ?_⟩
          intro v hv
          rcases List.mem_cons.mp hv with rfl | hv
          · exact hC1 (hB6.sub v hB4)
          · exact hC7 v hv
    -- apply the fold lemma to the full child list
    have hcard1 : (classesFin \ insert cl vis).card ≤ fuel := by
      have hsubd : classesFin \ insert cl vis ⊆ classesFin \ vis :=
        Finset.sdiff_subset_sdiff (Finset.Subset.refl _)
          (Finset.subset_insert cl vis)
      have hss : classesFin \ insert cl vis ⊂ classesFin \ vis := by
        rw [Finset.ssubset_iff_of_subset hsubd]
        exact ⟨cl, Finset.mem_sdiff.mpr ⟨hcl, hclv⟩,
          fun h => (Finset.mem_sdiff.mp h).2 (Finset.mem_insert_self cl vis)⟩
      have := Finset.card_lt_card hss
      omega
    have hinv1 : DfsInv childL (insert cl vis) sorted :=
      ⟨hinv.nodup, fun x hx => Finset.mem_insert_of_mem (hinv.sub x hx),
        hinv.ordered⟩
    have hreach1 : ∀ g ∈ insert cl vis, g ∉ sorted →
        g = cl ∨ Relation.TransGen G g cl := by
      intro g hg hgs
      rcases Finset.mem_insert.mp hg with rfl | hg
      · exact Or.inl rfl
      · exact Or.inr (hreach g hg hgs)
    obtain ⟨hD1, hD2, hD3, hD4, hD5, hD6, hD7⟩ :=
      inner (childL cl) (fun v hv => hv) (insert cl vis) sorted
        (Finset.mem_insert_self cl vis) hclsorted
        (Finset.insert_subset hcl hvsub) hcard1 hinv1 hreach1
        ((childL cl).foldl (dfsStep childL fuel) (insert cl vis, sorted)) rfl
    set st2 := (childL cl).foldl (dfsStep childL fuel) (insert cl vis, sorted)
      with hst2
    rw [dfsGo_succ, ← hst2] at hres
    subst hres
    have hclst2 : cl ∈ st2.1 ∧ cl ∉ st2.2 := by
      have hgrey : cl ∈ st2.1 \ st2.2.toFinset := by
        rw [hD5]
        exact Finset.mem_sdiff.mpr ⟨Finset.mem_insert_self cl vis,
          fun h => hclsorted (List.mem_toFinset.mp h)⟩
      exact ⟨(Finset.mem_sdiff.mp hgrey).1,
        fun h => (Finset.mem_sdiff.mp hgrey).2 (List.mem_toFinset.mpr h)⟩
    refine ⟨Finset.Subset.trans (Finset.subset_insert cl vis) hD1, hD2,
      ?_, ?_, ?_, ?_⟩
    · obtain ⟨d, hd⟩ := hD4
      exact ⟨d ++ [cl], by rw [hd, List.append_assoc]⟩
    · exact List.mem_append_right _ (List.mem_singleton_self cl)
    · ext x
      have hpt := Finset.ext_iff.mp hD5 x
      simp only [Finset.mem_sdiff, List.mem_toFinset, Finset.mem_insert]
        at hpt
      simp only [Finset.mem_sdiff, List.toFinset_append, Finset.mem_union,
        List.mem_toFinset, List.toFinset_cons, List.toFinset_nil,
        Finset.mem_insert, Finset.not_mem_empty, or_false, List.mem_append,
        List.mem_singleton]
      constructor
      · rintro ⟨hx1, hx2⟩
        have hx3 : x ∉ st2.2 := fun h => hx2 (Or.inl h)
        have hx4 : x ≠ cl := fun h => hx2 (Or.inr h)
        have hx5 := hpt.mp ⟨hx1, hx3⟩
        rcases hx5.1 with rfl | hxv
        · exact absurd rfl hx4
        · exact ⟨hxv, hx5.2⟩
      · rintro ⟨hxv, hxs⟩
        have hx4 : x ≠ cl := fun h => hclv (h ▸ hxv)
        have hx5 := hpt.mpr ⟨Or.inr hxv, hxs⟩
        exact ⟨hx5.1, fun h => h.elim (fun h2 => hx5.2 h2) hx4⟩
    · refine ⟨?_, ?_, ?_⟩
      · rw [List.nodup_append]
        exact ⟨hD6.nodup, List.nodup_singleton cl,
          fun a ha hamem => hclst2.2 ((List.mem_singleton.mp hamem) ▸ ha)⟩
      · intro x hx
        rcases List.mem_append.mp hx with hx | hx
        · exact hD6.sub x hx
        · exact (List.mem_singleton.mp hx) ▸ hclst2.1
      · intro u hu v hvc hvne
        rcases List.mem_append.mp hu with hu | hu
        · obtain ⟨hv1, hv2⟩ := hD6.ordered u hu v hvc hvne
          exact ⟨List.mem_append_left _ hv1, before_append_right hv2 [cl]⟩
        · have hucl : u = cl := List.mem_singleton.mp hu
          subst hucl
          have hvst : v ∈ st2.1 := hD7 v hvc
          have hvblack : v ∈ st2.2 := by
            by_contra hvn
            have hvgrey : v ∈ st2.1 \ st2.2.toFinset :=
              Finset.mem_sdiff.mpr
                ⟨hvst, fun h => hvn (List.mem_toFinset.mp h)⟩
            rw [hD5, Finset.mem_sdiff] at hvgrey
            rcases Finset.mem_insert.mp hvgrey.1 with rfl | hvv
            · exact hvne rfl
            · have htg : Relation.TransGen G v u :=
                hreach v hvv (fun h => hvgrey.2 (List.mem_toFinset.mpr h))
              have hGuv : G u v := hGsub u v hcl hvc hvne
              exact hacyc v (htg.tail hGuv)
          exact ⟨List.mem_append_left _ hvblack, before_append_self hvblack⟩

/-- Correctness of the top-level loop: starting every `dfs` from each
unvisited class keeps the invariant, keeps the grey set empty between
calls, and visits every listed class. -/
theorem topFold_spec (childL : Nat → List Nat) (classesFin : Finset Nat)
    (G : Nat → Nat → Prop)
    (hEcl : ∀ u v, u ∈ classesFin → v ∈ childL u → v ∈ classesFin)
    (hGsub : ∀ u v, u ∈ classesFin → v ∈ childL u → v ≠ u → G u v)
    (hacyc : ∀ a, ¬ Relation.TransGen G a a) (fuelTop : Nat) :
    ∀ (l : List Nat), (∀ x ∈ l, x ∈ classesFin) →
      ∀ (vis : Finset Nat) (sorted : List Nat),
        vis ⊆ classesFin →
        (classesFin \ vis).card ≤ fuelTop →
        DfsInv childL vis sorted →
        vis \ sorted.toFinset = ∅ →
        ∀ st, l.foldl (fun st cl =>
            if cl ∈ st.1 then st else dfsGo childL fuelTop cl st)
            (vis, sorted) = st →
          (vis ⊆ st.1 ∧ st.1 ⊆ classesFin ∧
            DfsInv childL st.1 st.2 ∧
            st.1 \ st.2.toFinset = ∅ ∧
            (∀ x ∈ l, x ∈ st.1)) := by
  intro l
  induction l with
  | nil =>
    intro _ vis sorted hvsub _ hinv hgrey st hst
    rw [List.foldl_nil] at hst
    subst hst
    exact ⟨Finset.Subset.refl _, hvsub, hinv, hgrey, by simp⟩
  | cons cl l ihl =>
    intro hl vis sorted hvsub hcard hinv hgrey st hst
    rw [List.foldl_cons] at hst
    by_cases hmem : cl ∈ vis
    · rw [if_pos hmem] at hst
      obtain ⟨hA1, hA2, hA3, hA4, hA5⟩ :=
        ihl (fun x hx => hl x (List.mem_cons_of_mem cl hx))
          vis sorted hvsub hcard hinv hgrey st hst
      refine ⟨hA1, hA2, hA3, hA4, fun x hx => ?_⟩
      rcases List.mem_cons.mp hx with rfl | hx
      · exact hA1 hmem
      · exact hA5 x hx
    · rw [if_neg hmem] at hst
      have hclC : cl ∈ classesFin := hl cl (List.mem_cons_self cl l)
      have hreach : ∀ g ∈ vis, g ∉ sorted → Relation.TransGen G g cl := by
        intro g hg hgs
        exfalso
        have : g ∈ vis \ sorted.toFinset :=
          Finset.mem_sdiff.mpr ⟨hg, fun h => hgs (List.mem_toFinset.mp h)⟩
        rw [hgrey] at this
        exact absurd this (Finset.not_mem_empty g)
      obtain ⟨hB1, hB2, hB3, hB4, hB5, hB6⟩ :=
        dfsGo_spec childL classesFin G hEcl hGsub hacyc fuelTop cl vis sorted
          hclC hmem hvsub hcard hinv hreach
          (dfsGo childL fuelTop cl (vis, sorted)) rfl
      set mid := dfsGo childL fuelTop cl (vis, sorted) with hmid
      have hcard2 : (classesFin \ mid.1).card ≤ fuelTop :=
        le_trans (Finset.card_le_card
          (Finset.sdiff_subset_sdiff (Finset.Subset.refl _) hB1)) hcard
      have hgrey2 : mid.1 \ mid.2.toFinset = ∅ := by rw [hB5, hgrey]
      obtain ⟨hC1, hC2, hC3, hC4, hC5⟩ :=
        ihl (fun x hx => hl x (List.mem_cons_of_mem cl hx))
          mid.1 mid.2 hB2 hcard2 hB6 hgrey2 st (by rw [← hst])
      refine ⟨Finset.Subset.trans hB1 hC1, hC2, hC3, hC4, fun x hx => ?_⟩
      rcases List.mem_cons.mp hx with rfl | hx
      · exact hC1 (hB6.sub x hB4)
      · exact hC5 x hx

/-- C2: for a model whose generalization edges are acyclic and lie
within its class set, `classes_sorted_by_inheritance()` contains each
class exactly once (no duplicates, and membership coincides with the
class set) and places every class before each of its transitive
specializations — for any iteration order of the class set and of the
`child_map` sets. -/
theorem c2_classes_sorted_by_inheritance (gens : List (Nat × Nat))
    (classes : List Nat) (childL : Nat → List Nat)
    (hnd : classes.Nodup)
    (hch : ∀ P, P ∈ classes →
      ∀ c, (c ∈ childL P ↔ childEdge gens classes P c))
    (hclosed : ∀ g ∈ gens, g.1 ∈ classes ∧ g.2 ∈ classes)
    (hacyc : ∀ a, ¬ Relation.TransGen (genEdge gens) a a) :
    (classes_sorted_by_inheritance childL classes).Nodup ∧
    (∀ c, c ∈ classes_sorted_by_inheritance childL classes ↔
      c ∈ classes) ∧
    (∀ a b, Relation.TransGen (genEdge gens) a b →
      Before (classes_sorted_by_inheritance childL classes) a b) := by
  have hEcl : ∀ u v, u ∈ classes.toFinset → v ∈ childL u →
      v ∈ classes.toFinset := by
    intro u v hu hv
    have := ((hch u (List.mem_toFinset.mp hu) v).mp hv).1
    exact List.mem_toFinset.mpr this
  have hGsub : ∀ u v, u ∈ classes.toFinset → v ∈ childL u → v ≠ u →
      genEdge gens u v := by
    intro u v hu hv hne
    obtain ⟨hvcls, g, hg, hg1⟩ := (hch u (List.mem_toFinset.mp hu) v).mp hv
    have hgf := List.mem_filter.mp hg
    have hgor : g.1 = v ∨ g.2 = v := by
      have h2 := hgf.2
      rw [decide_eq_true_eq] at h2
      exact h2
    rcases hgor with h1 | h2
    · exact absurd (hg1 ▸ h1 : u = v) (Ne.symm hne)
    · have hguv : g = (u, v) := by
        obtain ⟨ga, gb⟩ := g
        simp only [Prod.mk.injEq]
        exact ⟨hg1, h2⟩
      have hmemg : (u, v) ∈ gens := hguv ▸ hgf.1
      exact hmemg
  have hinv0 : DfsInv childL ∅ [] :=
    ⟨List.nodup_nil, by simp, by simp⟩
  obtain ⟨hT1, hT2, hT3, hT4, hT5⟩ :=
    topFold_spec childL classes.toFinset (genEdge gens) hEcl hGsub hacyc
      classes.length classes (fun x hx => List.mem_toFinset.mpr hx) ∅ []
      (Finset.empty_subset _)
      (by rw [Finset.sdiff_empty]; exact classes.toFinset_card_le)
      hinv0 (by simp)
      (classes.foldl (fun st cl =>
        if cl ∈ st.1 then st else dfsGo childL classes.length cl st)
        (∅, [])) rfl
  set st := classes.foldl (fun st cl =>
    if cl ∈ st.1 then st else dfsGo childL classes.length cl st)
    (∅, []) with hstdef
  have hmemiff : ∀ c, c ∈ st.2 ↔ c ∈ classes := by
    intro c
    constructor
    · intro hc
      exact List.mem_toFinset.mp (hT2 (hT3.sub c hc))
    · intro hc
      by_contra hcn
      have : c ∈ st.1 \ st.2.toFinset :=
        Finset.mem_sdiff.mpr
          ⟨hT5 c hc, fun h => hcn (List.mem_toFinset.mp h)⟩
      rw [hT4] at this
      exact absurd this (Finset.not_mem_empty c)
  have hLdef : classes_sorted_by_inheritance childL classes = st.2.reverse :=
    rfl
  refine ⟨?_, ?_, ?_⟩
  · rw [hLdef, List.nodup_reverse]
    exact hT3.nodup
  · intro c
    rw [hLdef, List.mem_reverse]
    exact hmemiff c
  · have hsingle : ∀ a b, genEdge gens a b →
        Before (classes_sorted_by_inheritance childL classes) a b := by
      intro a b hab
      have hne : a ≠ b := by
        rintro rfl
        exact hacyc a (Relation.TransGen.single hab)
      have hacls : a ∈ classes := (hclosed _ hab).1
      have hbcls : b ∈ classes := (hclosed _ hab).2
      have hbchild : b ∈ childL a := by
        rw [hch a hacls b]
        refine ⟨hbcls, (a, b), ?_, rfl⟩
        rw [gensOf, List.mem_filter]
        refine ⟨hab, ?_⟩
        simp
      have hast2 : a ∈ st.2 := (hmemiff a).mpr hacls
      obtain ⟨-, hbef⟩ := hT3.ordered a hast2 b hbchild (Ne.symm hne)
      rw [hLdef]
      exact before_reverse hbef
    intro a b htg
    have hLnd : (classes_sorted_by_inheritance childL classes).Nodup := by
      rw [hLdef, List.nodup_reverse]
      exact hT3.nodup
    induction htg with
    | single hab => exact hsingle _ _ hab
    | tail htg2 hab ih2 => exact before_trans hLnd ih2 (hsingle _ _ hab)

/-- The computable `childMap` has exactly the `child_map` membership,
for every key. -/
theorem childMap_spec (gens : List (Nat × Nat)) (classes : List Nat)
    (P c : Nat) :
    c ∈ childMap gens classes P ↔ childEdge gens classes P c := by
  simp [childMap, childEdge, List.mem_filter, List.any_eq_true]

/-- C2 witness: classes iterated as `[2,1,0]` with generalization edges
`0 → 1 → 2` (class 0 parent of 1, 1 parent of 2) and the canonical
child-map order: the result has no duplicates, contains exactly the
classes, and every ancestor precedes its descendants. -/
theorem c2_classes_sorted_witness :
    (classes_sorted_by_inheritance
      (childMap [(0, 1), (1, 2)] [2, 1, 0]) [2, 1, 0]).Nodup ∧
    (∀ c, c ∈ classes_sorted_by_inheritance
      (childMap [(0, 1), (1, 2)] [2, 1, 0]) [2, 1, 0] ↔ c ∈ [2, 1, 0]) ∧
    (∀ a b, Relation.TransGen (genEdge [(0, 1), (1, 2)]) a b →
      Before (classes_sorted_by_inheritance
        (childMap [(0, 1), (1, 2)] [2, 1, 0]) [2, 1, 0]) a b) := by
  refine c2_classes_sorted_by_inheritance [(0, 1), (1, 2)] [2, 1, 0]
    (childMap [(0, 1), (1, 2)] [2, 1, 0]) (by decide)
    (fun P _ c => childMap_spec [(0, 1), (1, 2)] [2, 1, 0] P c)
    (by decide) (acyclic_of_rank (fun x => x) ?_)
  intro a b h
  simp only [genEdge, List.mem_cons, List.not_mem_nil, or_false,
    Prod.mk.injEq] at h
  rcases h with ⟨rfl, rfl⟩ | ⟨rfl, rfl⟩ <;> decide

/-- In the two-class generalization cycle `[(1,0),(0,1)]` (class 1
general of 0 and class 0 general of 1 — constructible through the API,
since only the `specific` setter validates, and only against the same
generalization's own `general`), the `all_parents` recursion exhausts
any amount of fuel on both classes. -/
theorem all_parents_cycle_none :
    ∀ n, all_parents [(1, 0), (0, 1)] n 0 = none ∧
      all_parents [(1, 0), (0, 1)] n 1 = none := by
  intro n
  induction n with
  | zero => exact ⟨rfl, rfl⟩
  | succ n ih =>
    have hp0 : parents [(1, 0), (0, 1)] 0 = [1] := rfl
    have hp1 : parents [(1, 0), (0, 1)] 1 = [0] := rfl
    constructor
    · rw [show all_parents [(1, 0), (0, 1)] (n + 1) 0 =
        (parents [(1, 0), (0, 1)] 0).foldl (fun acc p =>
          match acc, all_parents [(1, 0), (0, 1)] n p with
          | some S, some T => some (S ∪ T)
          | _, _ => none) (some (parents [(1, 0), (0, 1)] 0).toFinset)
        from rfl, hp0, List.foldl_cons, ih.2]
      rfl
    · rw [show all_parents [(1, 0), (0, 1)] (n + 1) 1 =
        (parents [(1, 0), (0, 1)] 1).foldl (fun acc p =>
          match acc, all_parents [(1, 0), (0, 1)] n p with
          | some S, some T => some (S ∪ T)
          | _, _ => none) (some (parents [(1, 0), (0, 1)] 1).toFinset)
        from rfl, hp1, List.foldl_cons, ih.1]
      rfl

/-- C3 counterexample: on the API-reachable generalization cycle
between classes 0 and 1, `all_parents()` on class 0 does not terminate:
no recursion depth produces a result, refuting unconditional
termination. -/
theorem c3_cycle_diverges :
    ¬ ∃ fuel S, all_parents [(1, 0), (0, 1)] fuel 0 = some S := by
  rintro ⟨fuel, S, h⟩
  rw [(all_parents_cycle_none fuel).1] at h
  cases h

/-- C3 (amended): whenever the parent graph is acyclic, `all_parents()`
terminates on every class and returns exactly the transitive closure of
the direct `parents()` relation; on a generalization cycle the recursion
diverges. -/
theorem c3_all_parents_closure (gens : List (Nat × Nat)) (c : Nat)
    (hacyc : ∀ a, ¬ Relation.TransGen (pstep gens) a a) :
    ∃ fuel S, all_parents gens fuel c = some S ∧
      ∀ b, (b ∈ S ↔ Relation.TransGen (pstep gens) c b) := by
  obtain ⟨fuel, S, hS⟩ := all_parents_terminates gens hacyc c
  exact ⟨fuel, S, hS, all_parents_sound gens fuel c S hS⟩

/-- In the single-generalization model `[(1,0)]` every parent step goes
strictly upward in class id. -/
theorem pstep_single_lt : ∀ a b : Nat, pstep [(1, 0)] a b → a < b := by
  intro a b h
  obtain ⟨g, hg, rfl⟩ := List.mem_map.mp h
  have hg1 := List.mem_of_mem_filter hg
  have hcond := List.of_mem_filter hg
  have hcond1 := List.of_mem_filter hg1
  have hmem := List.mem_of_mem_filter hg1
  rw [List.mem_singleton] at hmem
  subst hmem
  simp only [decide_eq_true_eq, decide_not, Bool.not_eq_true',
    decide_eq_false_iff_not] at hcond hcond1
  rcases hcond1 with h1 | h0
  · exact absurd h1 hcond
  · omega

/-- C3 witness: the amended theorem on the acyclic one-edge model
`[(1,0)]` (class 1 is the parent of class 0), at class 0. -/
theorem c3_all_parents_closure_witness :
    ∃ fuel S, all_parents [(1, 0)] fuel 0 = some S ∧
      ∀ b, (b ∈ S ↔ Relation.TransGen (pstep [(1, 0)]) 0 b) :=
  c3_all_parents_closure [(1, 0)] 0
    (acyclic_of_rank (fun x => x) pstep_single_lt)

/-- C6: for a class of an acyclic generalization graph (so the parent
traversal terminates at some recursion depth), `all_attributes()`
contains all own attributes and equals the own attributes unioned with
the attributes of every class in `all_parents()` — equivalently, of
every transitive parent. -/
theorem c6_all_attributes (gens : List (Nat × Nat))
    (attrs : Nat → Finset Nat) (c : Nat)
    (hacyc : ∀ a, ¬ Relation.TransGen (pstep gens) a a) :
    ∃ fuel P R, all_parents gens fuel c = some P ∧
      all_attributes gens attrs fuel c = some R ∧
      attrs c ⊆ R ∧
      R = attrs c ∪ P.biUnion attrs ∧
      ∀ x, (x ∈ R ↔ x ∈ attrs c ∨
        ∃ p, Relation.TransGen (pstep gens) c p ∧ x ∈ attrs p) := by
  obtain ⟨fuel, P, hP⟩ := all_parents_terminates gens hacyc c
  have hsound := all_parents_sound gens fuel c P hP
  refine ⟨fuel, P, attrs c ∪ P.biUnion attrs, hP, ?_, Finset.subset_union_left,
    rfl, ?_⟩
  · rw [all_attributes, inherited_attributes, hP]
    rfl
  · intro x
    rw [Finset.mem_union, Finset.mem_biUnion]
    constructor
    · rintro (hx | ⟨p, hp, hx⟩)
      · exact Or.inl hx
      · exact Or.inr ⟨p, (hsound p).mp hp, hx⟩
    · rintro (hx | ⟨p, hp, hx⟩)
      · exact Or.inl hx
      · exact Or.inr ⟨p, (hsound p).mpr hp, hx⟩

/-- C6 witness: on the one-edge model `[(1,0)]` with attribute 10 on
class 0 and attribute 11 on class 1. -/
theorem c6_all_attributes_witness :
    letI attrs : Nat → Finset Nat :=
      fun c => if c = 0 then {10} else if c = 1 then {11} else ∅
    ∃ fuel P R, all_parents [(1, 0)] fuel 0 = some P ∧
      all_attributes [(1, 0)] attrs fuel 0 = some R ∧
      attrs 0 ⊆ R ∧
      R = attrs 0 ∪ P.biUnion attrs ∧
      ∀ x, (x ∈ R ↔ x ∈ attrs 0 ∨
        ∃ p, Relation.TransGen (pstep [(1, 0)]) 0 p ∧ x ∈ attrs p) :=
  c6_all_attributes [(1, 0)] _ 0
    (acyclic_of_rank (fun x => x) pstep_single_lt)

/-! ### Supporting lemmas for association_ends (C7) -/

/-- Membership after the `ends.update(aends)` insert loop. -/
theorem insFold_mem (l : List Nat) :
    ∀ (acc : Finset Nat) (x : Nat),
      (x ∈ l.foldl (fun s e => insert e s) acc ↔ x ∈ acc ∨ x ∈ l) := by
  induction l with
  | nil => simp
  | cons e l ih =>
    intro acc x
    rw [List.foldl_cons, ih]
    simp only [Finset.mem_insert, List.mem_cons]
    tauto

/-- Membership after the discard loop of `association_ends`. -/
theorem eraseFold_mem (ptype : Nat → Nat) (selfC : Nat) (l : List Nat) :
    ∀ (acc : Finset Nat) (x : Nat),
      (x ∈ l.foldl (fun s e => if ptype e = selfC then s.erase e else s) acc ↔
        x ∈ acc ∧ ¬(x ∈ l ∧ ptype x = selfC)) := by
  induction l with
  | nil => simp
  | cons e l ih =>
    intro acc x
    rw [List.foldl_cons, ih]
    by_cases he : ptype e = selfC
    · rw [if_pos he]
      simp only [Finset.mem_erase, List.mem_cons]
      constructor
      · rintro ⟨⟨hne, hacc⟩, hl⟩
        refine ⟨hacc, ?_⟩
        rintro ⟨rfl | hx, hpx⟩
        · exact hne rfl
        · exact hl ⟨hx, hpx⟩
      · rintro ⟨hacc, hn⟩
        refine ⟨⟨?_, hacc⟩, ?_⟩
        · rintro rfl; exact hn ⟨Or.inl rfl, he⟩
        · rintro ⟨hx, hpx⟩; exact hn ⟨Or.inr hx, hpx⟩
    · rw [if_neg he]
      simp only [List.mem_cons]
      constructor
      · rintro ⟨hacc, hn⟩
        refine ⟨hacc, ?_⟩
        rintro ⟨rfl | hx, hpx⟩
        · exact he hpx
        · exact hn ⟨hx, hpx⟩
      · rintro ⟨hacc, hn⟩
        exact ⟨hacc, fun h => hn ⟨Or.inr h.1, h.2⟩⟩

/-- An association's contribution consists of its own ends. -/
theorem endContribution_subset {ptype : Nat → Nat} {selfC : Nat}
    {aends : List Nat} {x : Nat} (h : x ∈ endContribution ptype selfC aends) :
    x ∈ aends := by
  unfold endContribution at h
  by_cases hs : sameTypePair ptype aends
  · rw [if_pos hs, List.mem_toFinset] at h; exact h
  · rw [if_neg hs, List.mem_toFinset, List.mem_filter] at h; exact h.1

/-- One `association_ends` loop iteration adds exactly the
association's contribution, provided the association's ends are not
already accumulated (no sharing of end objects). -/
theorem aeStep_mem (ptype : Nat → Nat) (selfC : Nat) (aends : List Nat)
    (acc : Finset Nat) (hd : ∀ e ∈ aends, e ∉ acc) (x : Nat) :
    (x ∈ aeStep ptype selfC acc aends ↔
      x ∈ acc ∨ x ∈ endContribution ptype selfC aends) := by
  unfold aeStep endContribution
  by_cases hs : sameTypePair ptype aends
  · rw [if_pos hs, if_pos hs, insFold_mem, List.mem_toFinset]
  · rw [if_neg hs, if_neg hs, eraseFold_mem, insFold_mem, List.mem_toFinset,
      List.mem_filter]
    simp only [ne_eq, decide_not, Bool.not_eq_true', decide_eq_false_iff_not]
    constructor
    · rintro ⟨hacc | hl, hn⟩
      · exact Or.inl hacc
      · exact Or.inr ⟨hl, fun hpx => hn ⟨hl, hpx⟩⟩
    · rintro (hacc | ⟨hl, hpx⟩)
      · exact ⟨Or.inl hacc, fun h => hd x h.1 hacc⟩
      · exact ⟨Or.inr hl, fun h => hpx h.2⟩

/-- The accumulated set of `association_ends` is the union of the
per-association contributions, provided no end object is shared between
the class's associations (each property belongs to one association). -/
theorem aeFold_mem (ptype : Nat → Nat) (selfC : Nat) :
    ∀ (assocs : List (List Nat)) (acc : Finset Nat),
      (∀ a ∈ assocs, ∀ e ∈ a, e ∉ acc) →
      assocs.Pairwise (fun a b => ∀ e ∈ a, e ∉ b) →
      ∀ x, (x ∈ assocs.foldl (aeStep ptype selfC) acc ↔
        x ∈ acc ∨ ∃ a ∈ assocs, x ∈ endContribution ptype selfC a) := by
  intro assocs
  induction assocs with
  | nil => intro acc _ _ x; simp
  | cons aends assocs ih =>
    intro acc hdisj hpw x
    have hd0 : ∀ e ∈ aends, e ∉ acc :=
      hdisj aends (List.mem_cons_self aends assocs)
    have hacc' : ∀ a ∈ assocs, ∀ e ∈ a, e ∉ aeStep ptype selfC acc aends := by
      intro a ha e he hmem
      rw [aeStep_mem ptype selfC aends acc hd0] at hmem
      rcases hmem with hmem | hmem
      · exact hdisj a (List.mem_cons_of_mem aends ha) e he hmem
      · have : e ∈ aends := endContribution_subset hmem
        exact (List.rel_of_pairwise_cons hpw ha) e this he
    rw [List.foldl_cons, ih _ hacc' hpw.tail x,
      aeStep_mem ptype selfC aends acc hd0]
    simp only [List.exists_mem_cons_iff]
    tauto

/-- C7: for a class `C` with pairwise end-disjoint associations (each
end object belongs to exactly one association, as the owner protocol
keeps it), and any association `A` in `C.associations`: if `A` has
exactly two ends of the same type, `association_ends()` contains both
of them; otherwise it contains exactly those ends of `A` whose type is
not `C`. -/
theorem c7_association_ends (ptype : Nat → Nat) (selfC : Nat)
    (assocs : List (List Nat))
    (hdisj : assocs.Pairwise (fun a b => ∀ e ∈ a, e ∉ b))
    (A : List Nat) (hA : A ∈ assocs) :
    (∀ e1 e2, A = [e1, e2] → ptype e1 = ptype e2 →
      e1 ∈ association_ends ptype selfC assocs ∧
      e2 ∈ association_ends ptype selfC assocs) ∧
    (sameTypePair ptype A = false →
      ∀ e ∈ A, (e ∈ association_ends ptype selfC assocs ↔
        ptype e ≠ selfC)) := by
  have hmain : ∀ x, (x ∈ association_ends ptype selfC assocs ↔
      ∃ a ∈ assocs, x ∈ endContribution ptype selfC a) := by
    intro x
    rw [association_ends, aeFold_mem ptype selfC assocs ∅ (by simp) hdisj x]
    simp
  have hsym : Symmetric (fun (a b : List Nat) => ∀ e ∈ a, e ∉ b) := by
    intro a b hab e heb hea
    exact hab e hea heb
  constructor
  · rintro e1 e2 rfl hty
    have hs : sameTypePair ptype [e1, e2] = true := by
      unfold sameTypePair
      exact decide_eq_true hty
    have hc : ∀ y ∈ [e1, e2], y ∈ endContribution ptype selfC [e1, e2] := by
      intro y hy
      unfold endContribution
      rw [if_pos hs, List.mem_toFinset]
      exact hy
    exact ⟨(hmain e1).mpr ⟨_, hA, hc e1 (by simp)⟩,
      (hmain e2).mpr ⟨_, hA, hc e2 (by simp)⟩⟩
  · intro hs e he
    rw [hmain e]
    constructor
    · rintro ⟨a, ha, hca⟩
      have hea : e ∈ a := endContribution_subset hca
      have haA : a = A := by
        by_contra hne
        exact (List.Pairwise.forall hsym hdisj ha hA hne) e hea he
      subst haA
      unfold endContribution at hca
      rw [if_neg (by rw [hs]; exact Bool.false_ne_true), List.mem_toFinset,
        List.mem_filter] at hca
      simpa using hca.2
    · intro hty
      refine ⟨A, hA, ?_⟩
      unfold endContribution
      rw [if_neg (by rw [hs]; exact Bool.false_ne_true), List.mem_toFinset,
        List.mem_filter]
      exact ⟨he, by simpa using hty⟩

/-- C7 witness: class 0, end types given by division by ten; the
self-association `[1, 2]` (both ends typed 0) keeps both ends, and the
ordinary association `[30, 5]` keeps its end 30 (typed 3) and drops its
end 5 (typed 0). -/
theorem c7_association_ends_witness :
    (1 ∈ association_ends (fun e => e / 10) 0 [[1, 2], [30, 5]] ∧
      2 ∈ association_ends (fun e => e / 10) 0 [[1, 2], [30, 5]]) ∧
    (30 ∈ association_ends (fun e => e / 10) 0 [[1, 2], [30, 5]] ↔
      (30 : Nat) / 10 ≠ 0) ∧
    (5 ∈ association_ends (fun e => e / 10) 0 [[1, 2], [30, 5]] ↔
      (5 : Nat) / 10 ≠ 0) := by
  have h1 := c7_association_ends (fun e => e / 10) 0 [[1, 2], [30, 5]]
    (by decide) [1, 2] (by simp)
  have h2 := c7_association_ends (fun e => e / 10) 0 [[1, 2], [30, 5]]
    (by decide) [30, 5] (by simp)
  exact ⟨h1.1 1 2 rfl (by decide),
    h2.2 (by decide) 30 (by simp), h2.2 (by decide) 5 (by simp)⟩

/-- C5 counterexample: the `types` setter rejects the collection
`{Class named "int"}` — whose elements pairwise share no name — because
the scan runs over the union with the primitive data types, where the
model's `"int"` clashes with the primitive `"int"`; so it is not the
case that every one of the five setters scans (only) the new collection
and rejects exactly on an internal duplicate name. -/
theorem c5_types_scans_primitives :
    letI dm0 : DMState := ⟨[], [], [], [], []⟩
    ([(5, "int")].map Prod.snd).Nodup ∧
    (typesSetter dm0 [(5, "int")]).1.isSome ∧
    (typesSetter dm0 [(5, "int")]).2 = dm0 := by
  refine ⟨by decide, by decide, by decide⟩

/-- C5 (amended): the `associations`, `packages` and `constraints`
setters reject with `DuplicateName` exactly when two elements of the
new collection share a name, leaving the stored collection untouched on
rejection and storing the new collection on success; the `types` setter
runs the same scan (and stores) over the union of the new collection
with the eight primitive data types rather than the new collection
alone; and the `generalizations` setter performs no duplicate scan at
all (generalizations are unnamed) and always stores the new
collection. -/
theorem c5_setters (s : DMState) (new : List (Nat × String))
    (gnew : List Nat) :
    ((new.map Prod.snd).Nodup →
      associationsSetter s new = (none, { s with associations := new }) ∧
      packagesSetter s new = (none, { s with packages := new }) ∧
      constraintsSetter s new = (none, { s with constraints := new })) ∧
    (¬ (new.map Prod.snd).Nodup →
      (associationsSetter s new).1.isSome ∧ (associationsSetter s new).2 = s ∧
      (packagesSetter s new).1.isSome ∧ (packagesSetter s new).2 = s ∧
      (constraintsSetter s new).1.isSome ∧ (constraintsSetter s new).2 = s) ∧
    (((typesUnion new).map Prod.snd).Nodup →
      typesSetter s new = (none, { s with types := typesUnion new })) ∧
    (¬ ((typesUnion new).map Prod.snd).Nodup →
      (typesSetter s new).1.isSome ∧ (typesSetter s new).2 = s) ∧
    generalizationsSetter s gnew = (none, { s with generalizations := gnew }) := by
  refine ⟨fun hnd => ?_, fun hnd => ?_, fun hnd => ?_, fun hnd => ?_, rfl⟩
  · have hscan : scanDups (new.map Prod.snd) = [] :=
      (scanDups_eq_nil_iff _).mpr hnd
    have hlen : (new.map Prod.snd).length = (new.map Prod.snd).dedup.length :=
      (dedup_length_eq_iff _).mpr hnd
    refine ⟨?_, ?_, ?_⟩ <;>
      simp [associationsSetter, packagesSetter, constraintsSetter, hscan, hlen]
  · have hscan : ¬ scanDups (new.map Prod.snd) = [] :=
      fun h => hnd ((scanDups_eq_nil_iff _).mp h)
    have hlen : ¬ (new.map Prod.snd).length = (new.map Prod.snd).dedup.length :=
      fun h => hnd ((dedup_length_eq_iff _).mp h)
    rw [List.length_map] at hlen
    refine ⟨?_, ?_, ?_, ?_, ?_, ?_⟩ <;>
      simp [associationsSetter, packagesSetter, constraintsSetter, hscan, hlen]
  · have hscan := (scanDups_eq_nil_iff _).mpr hnd
    simp [typesSetter, hscan]
  · have hscan : ¬ scanDups _ = [] := fun h => hnd ((scanDups_eq_nil_iff _).mp h)
    constructor <;> simp [typesSetter, hscan]

/-- C5 witness: the amended theorem at a concrete model and collections:
a duplicate-free association collection is committed, a clashing one is
rejected leaving the model untouched. -/
theorem c5_setters_witness :
    letI dm0 : DMState := ⟨[], [], [], [], []⟩
    (associationsSetter dm0 [(1, "a"), (2, "b")] =
      (none, { dm0 with associations := [(1, "a"), (2, "b")] })) ∧
    ((associationsSetter dm0 [(1, "a"), (2, "a")]).1.isSome ∧
      (associationsSetter dm0 [(1, "a"), (2, "a")]).2 = dm0) := by
  refine ⟨((c5_setters _ [(1, "a"), (2, "b")] []).1 (by decide)).1,
    ⟨((c5_setters _ [(1, "a"), (2, "a")] []).2.1 (by decide)).1,
      ((c5_setters _ [(1, "a"), (2, "a")] []).2.1 (by decide)).2.1⟩⟩

/-- C9 counterexample: `"string"` is not one of the eight primitive type
names, yet `TypedElement` resolution maps it to the shared `str`
primitive singleton, not to an ad hoc named type `Type("string")` as the
claim requires for every string outside the eight names. -/
theorem c9_string_alias_refutes :
    "string" ∉ primitiveNames ∧
    resolveTypeStr "string" = BType.primitive "str" ∧
    resolveTypeStr "string" ≠ BType.named "string" := by
  refine ⟨by decide, rfl, by decide⟩

/-- C9 (amended): string-type resolution is a total pure lookup in the
fixed nine-key mapping (the eight primitive names plus the alias
`"string"`): a key resolves to the corresponding shared primitive
singleton, whose canonical name is one of the eight primitive names, and
every string outside the mapping resolves to a fresh ad hoc named type
carrying that string. -/
theorem c9_resolution (s : String) :
    (∀ p, type_mapping.lookup s = some p →
      resolveTypeStr s = BType.primitive p ∧ p ∈ primitiveNames) ∧
    (type_mapping.lookup s = none → resolveTypeStr s = BType.named s) ∧
    (type_mapping.map Prod.fst).length = 9 := by
  refine ⟨fun p hp => ⟨?_, ?_⟩, fun hn => ?_, rfl⟩
  · simp [resolveTypeStr, hp]
  · have hm := lookup_val_mem hp
    fin_cases hm <;> decide
  · simp [resolveTypeStr, hn]

/-- C9 witness: instantiating the amended resolution theorem at the
alias key `"string"`. -/
theorem c9_resolution_witness :
    resolveTypeStr "string" = BType.primitive "str" ∧
    "str" ∈ primitiveNames :=
  (c9_resolution "string").1 "str" (by decide)

/-- C8 counterexample: adding a fresh literal (id 5, named `"b"`) to an
enumeration (id 1, one literal id 3 named `"a"`, no owners set) succeeds
and inserts it, but leaves the literal's owner untouched (`none`, not
the enumeration), contrary to the claim that `add_literal` sets the
owner the way `add_attribute` does. -/
theorem c8_owner_not_set :
    letI s : LitState :=
      ⟨fun l => if l = 3 then "a" else "b", fun _ => none, [3]⟩
    (addLiteral s 5).1 = none ∧
    5 ∈ (addLiteral s 5).2.enumLits ∧
    (addLiteral s 5).2.litOwner 5 = none := by
  refine ⟨by decide, by decide, rfl⟩

/-- C8 (amended): `Enumeration.add_literal` raises `DuplicateName` and
leaves the enumeration unchanged when the literal's name equals the name
of an existing literal; otherwise it inserts the literal into the
literal set — but, unlike `add_attribute`, it does not modify the
literal's owner. -/
theorem c8_addLiteral (s : LitState) (lid : Nat) :
    (s.litName lid ∈ s.enumLits.map s.litName →
      (addLiteral s lid).1.isSome ∧ (addLiteral s lid).2 = s) ∧
    (s.litName lid ∉ s.enumLits.map s.litName →
      (addLiteral s lid).1 = none ∧
      (addLiteral s lid).2.enumLits = lid :: s.enumLits ∧
      (addLiteral s lid).2.litOwner = s.litOwner) := by
  constructor
  · intro hdup
    simp [addLiteral, hdup]
  · intro hfresh
    simp [addLiteral, hfresh]

/-- C8 witness for the amended theorem: a clash on name `"a"` raises and
leaves the state unchanged. -/
theorem c8_addLiteral_witness :
    letI s : LitState :=
      ⟨fun l => if l = 3 then "a" else "a", fun _ => none, [3]⟩
    (addLiteral s 7).1.isSome ∧ (addLiteral s 7).2 = s :=
  (c8_addLiteral _ 7).1 (by decide)

/-- C4 counterexample: constructing `Generalization(general := X,
specific := X)` (class id 0, generalization id 7, starting from empty
back-reference sets) raises the self-generalization error, yet the
failed construction has already inserted the generalization into
`X.generalizations`: the stored state is not as it was before the
operation, refuting atomicity of failing mutations. -/
theorem c4_genInit_not_atomic :
    (genInitRun 7 (fun _ => ∅) 0 0).1.isSome ∧
    7 ∈ (genInitRun 7 (fun _ => ∅) 0 0).2.cgens 0 := by
  constructor
  · decide
  · show 7 ∈ (genInitRun 7 (fun _ => ∅) 0 0).2.cgens 0
    simp [genInitRun, setGeneral, setSpecific, addGenTo]

/-- C4 (amended): the `specific` setter itself is atomic — whenever it
raises, the returned state is exactly the input state — but
`Generalization.__init__` is not: for every initial back-reference map,
constructing with `general = specific = X` raises while leaving the
generalization freshly inserted in `X.generalizations`, because the
`general` setter mutates before the `specific` setter validates. -/
theorem c4_atomicity (gid X : Nat) (cg : Nat → Finset Nat) :
    (∀ s spec, (setSpecific gid s spec).1.isSome →
      (setSpecific gid s spec).2 = s) ∧
    (genInitRun gid cg X X).1.isSome ∧
    gid ∈ (genInitRun gid cg X X).2.cgens X := by
  refine ⟨fun s spec hraise => ?_, ?_, ?_⟩
  · unfold setSpecific at hraise ⊢
    by_cases h : some spec = s.ggeneral
    · simp [h]
    · simp [h] at hraise
  · simp [genInitRun, setGeneral, setSpecific, addGenTo]
  · simp [genInitRun, setGeneral, setSpecific, addGenTo]

/-- C4 witness: the amended theorem at class id 2, generalization id 9,
empty initial back-references; the setter-atomicity conjunct is applied
at a concrete raising call. -/
theorem c4_atomicity_witness :
    (setSpecific 9 ⟨fun _ => ∅, some 2, none⟩ 2).1.isSome →
      ((setSpecific 9 ⟨fun _ => ∅, some 2, none⟩ 2).2 =
        (⟨fun _ => ∅, some 2, none⟩ : GState)) :=
  (c4_atomicity 9 2 (fun _ => ∅)).1 ⟨fun _ => ∅, some 2, none⟩ 2

/-- C10: the self-generalization check is asymmetric.  Starting from a
well-formed generalization `g` (general `X`, specific `Y`, `X ≠ Y`, so
construction succeeds), assigning `g.general := Y` (the current
specific) succeeds — the `general` setter performs no validation and
never raises in the embedding, it is a total function — and afterwards
the stored general equals the stored specific. -/
theorem c10_general_setter_asymmetric (gid X Y : Nat) (cg : Nat → Finset Nat)
    (hXY : X ≠ Y) :
    (genInitRun gid cg X Y).1 = none ∧
    (genInitRun gid cg X Y).2.gspecific = some Y ∧
    (setGeneral gid (genInitRun gid cg X Y).2 Y).ggeneral = some Y ∧
    (setGeneral gid (genInitRun gid cg X Y).2 Y).gspecific = some Y := by
  have hne : ¬ (some Y = (some X : Option Nat)) := by
    simp [Option.some_inj]
    exact fun h => hXY h.symm
  refine ⟨?_, ?_, ?_, ?_⟩ <;>
    simp [genInitRun, setGeneral, setSpecific, addGenTo, delGenFrom, hne]

/-- C10 witness: at `X = 0`, `Y = 1`, the rewired generalization has
`general = specific = 1` and no step raised. -/
theorem c10_general_setter_witness :
    (genInitRun 4 (fun _ => ∅) 0 1).1 = none ∧
    (genInitRun 4 (fun _ => ∅) 0 1).2.gspecific = some 1 ∧
    (setGeneral 4 (genInitRun 4 (fun _ => ∅) 0 1).2 1).ggeneral = some 1 ∧
    (setGeneral 4 (genInitRun 4 (fun _ => ∅) 0 1).2 1).gspecific = some 1 :=
  c10_general_setter_asymmetric 4 0 1 (fun _ => ∅) (by decide)

end BUML
